import Mathlib

/-!
Verification of the m3u8 downloader (src/src/main.rs).

The development shallowly embeds the resolver, the batch downloader and the
byte-range fetcher of the program. Pure functions become Lean functions;
the network is an explicit oracle (a function from URLs to fetch results
for the resolver, a list of connection events for the fetcher); Rust
operations that can diverge with a run-aborting failure are modelled with
`Option`, where `none` stands for such an abort.
-/

set_option autoImplicit false

/-! ## Model of the external `url` crate

Modelled from the spec: standard URL-resolution rules (the program delegates
them to the external `url` crate, which implements the WHATWG URL Standard;
that code is not part of this repository). The model covers hierarchical
`http`/`https` URLs without user info, query or fragment; any string outside
this fragment is mapped to `none`. It reproduces the serializer
normalizations relevant here: ASCII-lowercasing of scheme and host,
dot-segment removal, default-port elision, and the mandatory `/` path.
-/

/-- ASCII lowercase of one character. -/
def asciiLower (c : Char) : Char :=
  if 65 ≤ c.toNat ∧ c.toNat ≤ 90 then Char.ofNat (c.toNat + 32) else c

/-- Characters allowed after the first character of a URL scheme. -/
def isSchemeTailChar (c : Char) : Bool :=
  c.isAlphanum || c == '+' || c == '-' || c == '.'

/-- Characters allowed in a host name (after lowercasing). -/
def isHostChar (c : Char) : Bool :=
  c.isAlphanum || c == '.' || c == '-'

/-- Characters the model allows inside a path segment. -/
def isPathChar (c : Char) : Bool :=
  c.isAlphanum || c == '.' || c == '-' || c == '_' || c == '~' || c == '%'

/-- Split a character list at the first character satisfying `stop`;
the stop character stays at the head of the second component. -/
def takeUntil (stop : Char → Bool) : List Char → List Char × List Char
  | [] => ([], [])
  | c :: rest =>
    if stop c then ([], c :: rest)
    else
      let p := takeUntil stop rest
      (c :: p.1, p.2)

/-- Split a character list into path segments at every slash. -/
def splitSegs : List Char → List (List Char)
  | [] => [[]]
  | '/' :: rest => [] :: splitSegs rest
  | c :: rest =>
    match splitSegs rest with
    | s :: ss => (c :: s) :: ss
    | [] => [[c]]

/-- Remove dot segments from a path, as the WHATWG path parser does:
a single dot is dropped, a double dot pops the previous segment, and a
trailing dot segment leaves a trailing empty segment. Second argument is
the accumulator of already emitted segments, in reverse. -/
def normSegs : List (List Char) → List (List Char) → List (List Char)
  | [], acc => acc.reverse
  | seg :: rest, acc =>
    if seg = ['.', '.'] then
      if rest = [] then (([] : List Char) :: acc.tail).reverse
      else normSegs rest acc.tail
    else if seg = ['.'] then
      if rest = [] then (([] : List Char) :: acc).reverse
      else normSegs rest acc
    else normSegs rest (seg :: acc)

/-- Parse a run of decimal digits, failing on any other character. -/
def digitsToNat : List Char → Nat → Option Nat
  | [], acc => some acc
  | c :: rest, acc =>
    if 48 ≤ c.toNat ∧ c.toNat ≤ 57 then digitsToNat rest (acc * 10 + (c.toNat - 48))
    else none

/-- A parsed absolute URL of the modelled fragment. -/
structure Url where
  scheme : String
  host : String
  port : Option Nat
  pathSegs : List String
  deriving DecidableEq

/-- Host and optional port of an authority component. The default port of
the scheme is elided, as the crate does. -/
def parseAuthority (scheme : String) (cs : List Char) : Option (String × Option Nat) :=
  let p := takeUntil (fun c => c == ':') cs
  let lowered := p.1.map asciiLower
  if p.1 = [] then none
  else if !(lowered.all isHostChar) then none
  else
    match p.2 with
    | [] => some (String.mk lowered, none)
    | _ :: ds =>
      if ds = [] then some (String.mk lowered, none)
      else
        match digitsToNat ds 0 with
        | none => none
        | some prt =>
          if 65536 ≤ prt then none
          else if (scheme = "http" ∧ prt = 80) ∨ (scheme = "https" ∧ prt = 443) then
            some (String.mk lowered, none)
          else some (String.mk lowered, some prt)

/-- Model of `Url::parse` on the covered fragment: `none` both for relative
references and for strings outside the modelled fragment. -/
def urlParse (s : String) : Option Url :=
  let cs := s.data
  let sp := takeUntil (fun c => c == ':') cs
  match sp.2 with
  | ':' :: '/' :: '/' :: rest2 =>
    if sp.1 = [] then none
    else if !((sp.1.headD ' ').isAlpha) then none
    else if !(sp.1.all isSchemeTailChar) then none
    else
      let scheme := String.mk (sp.1.map asciiLower)
      if scheme ≠ "http" ∧ scheme ≠ "https" then none
      else
        let ap := takeUntil (fun c => c == '/') rest2
        match parseAuthority scheme ap.1 with
        | none => none
        | some hp =>
          let segs :=
            match ap.2 with
            | [] => [([] : List Char)]
            | _ :: pcs => splitSegs pcs
          if segs.all (fun seg => seg.all isPathChar) then
            some ⟨scheme, hp.1, hp.2, (normSegs segs []).map String.mk⟩
          else none
  | _ => none

/-- Model of resolving a reference against a base URL
(`Url::options().base_url(Some(base)).parse(ref)`): an absolute reference
stands alone, otherwise the path is merged with the base path. -/
def urlJoin (base : Url) (ref : String) : Option Url :=
  match urlParse ref with
  | some u => some u
  | none =>
    match ref.data with
    | [] => some base
    | '/' :: '/' :: _ => none
    | '/' :: rest =>
      let segs := splitSegs rest
      if segs.all (fun seg => seg.all isPathChar) then
        some { base with pathSegs := (normSegs segs []).map String.mk }
      else none
    | cs =>
      let segs := splitSegs cs
      if segs.all (fun seg => seg.all isPathChar) then
        some { base with
          pathSegs :=
            (normSegs ((base.pathSegs.map String.data).dropLast ++ segs) []).map String.mk }
      else none

/-- Join a list of strings with slashes. -/
def sepJoin : List String → String
  | [] => ""
  | [s] => s
  | s :: rest => s ++ "/" ++ sepJoin rest

/-- Model of `Url::to_string`: the canonical serialization. -/
def urlToString (u : Url) : String :=
  u.scheme ++ "://" ++ u.host ++
    (match u.port with
     | none => ""
     | some p => ":" ++ Nat.repr p) ++
    "/" ++ sepJoin u.pathSegs

/-! ## Playlist data model

Only the fields the program reads are modelled: a variant of a master
playlist carries its bandwidth (a string in the `m3u8_rs` version used) and
its URI, and a media segment carries its URI (`src/src/main.rs` lines
104-137 touch nothing else).
-/

/-- One variant entry of a master playlist. -/
structure VariantStream where
  bandwidth : String
  uri : String
  deriving DecidableEq

/-- A master playlist: its ordered variants. -/
structure MasterPlaylist where
  variants : List VariantStream
  deriving DecidableEq

/-- One media segment: its URI, the only field the program rewrites. -/
structure MediaSegment where
  uri : String
  deriving DecidableEq

/-- A media playlist: its ordered segments. -/
structure MediaPlaylist where
  segments : List MediaSegment
  deriving DecidableEq

/-- Model of `u64::from_str` as invoked by `variant.bandwidth.parse::<u64>()`:
an optional leading plus sign, then at least one decimal digit, with the
value bounded by `2 ^ 64`; `none` models a parse error. -/
def parseU64Digits : List Char → Nat → Option Nat
  | [], acc => some acc
  | c :: rest, acc =>
    if 48 ≤ c.toNat ∧ c.toNat ≤ 57 then
      let acc' := acc * 10 + (c.toNat - 48)
      if acc' < 2 ^ 64 then parseU64Digits rest acc' else none
    else none

/-- Entry point of the `u64` string parser. -/
def parseU64 (s : String) : Option Nat :=
  match s.data with
  | [] => none
  | '+' :: rest => if rest = [] then none else parseU64Digits rest 0
  | cs => parseU64Digits cs 0

/-- Model of `Url::parse(&uri).unwrap_or_else(|_| Url::options()
.base_url(Some(&original_url)).parse(&uri).unwrap())` at
`src/src/main.rs:116` and `:128`; `none` models the inner unwrap aborting. -/
def resolve_uri (base : Url) (uri : String) : Option Url :=
  match urlParse uri with
  | some u => some u
  | none => urlJoin base uri

/-! ## `normalize_media_playlist` (src/src/main.rs:126-137) -/

/-- The loop body of `normalize_media_playlist`: each segment URI is
replaced by the serialization of its resolution against the base. -/
def normalize_segment_uris (base : Url) : List MediaSegment → Option (List MediaSegment)
  | [] => some []
  | s :: rest =>
    match resolve_uri base s.uri with
    | none => none
    | some u => (normalize_segment_uris base rest).map (fun tail => ⟨urlToString u⟩ :: tail)

/-- Model of `normalize_media_playlist`. -/
def normalize_media_playlist (pl : MediaPlaylist) (original_url : Url) : Option MediaPlaylist :=
  (normalize_segment_uris original_url pl.segments).map MediaPlaylist.mk

/-! ## `choose_urls_from_master_playlist` (src/src/main.rs:104-124) -/

/-- The bandwidth parses performed while Rust evaluates
`variants.iter().max_by_key(|v| v.bandwidth.parse::<u64>().unwrap())`:
every variant is parsed, and any failure aborts the run. -/
def parse_all : List VariantStream → Option (List Nat)
  | [] => some []
  | v :: rest =>
    match parseU64 v.bandwidth, parse_all rest with
    | some b, some bs => some (b :: bs)
    | _, _ => none

/-- Maximum of a nonempty list, threading the current maximum. -/
def listMaxFrom (cur : Nat) : List Nat → Nat
  | [] => cur
  | y :: ys => listMaxFrom (Nat.max cur y) ys

/-- Model of `.max_by_key(..).map(..)` followed by `.unwrap()`: the maximal
bandwidth value, aborting on an empty variant list. -/
def listMax? : List Nat → Option Nat
  | [] => none
  | x :: xs => some (listMaxFrom x xs)

/-- Model of `.filter(|v| v.bandwidth.parse::<u64>().unwrap() >= best)`:
the filter closure re-parses each bandwidth and unwraps. -/
def filter_unwrap (best : Nat) : List VariantStream → Option (List VariantStream)
  | [] => some []
  | v :: rest =>
    match parseU64 v.bandwidth with
    | none => none
    | some b =>
      (filter_unwrap best rest).map (fun tail => if best ≤ b then v :: tail else tail)

/-- The final `.map(|uri| Url::parse(..).unwrap_or_else(..))` of
`choose_urls_from_master_playlist` over the selected variants. -/
def resolve_all (base : Url) : List VariantStream → Option (List Url)
  | [] => some []
  | v :: rest =>
    match resolve_uri base v.uri with
    | none => none
    | some u => (resolve_all base rest).map (fun tail => u :: tail)

/-- Model of `choose_urls_from_master_playlist`. -/
def choose_urls_from_master_playlist (pl : MasterPlaylist) (original_url : Url) :
    Option (List Url) :=
  match parse_all pl.variants with
  | none => none
  | some bws =>
    match listMax? bws with
    | none => none
    | some best =>
      match filter_unwrap best pl.variants with
      | none => none
      | some selected => resolve_all original_url selected

/-! ## `choose_media_playlist` (src/src/main.rs:68-102)

The network and the manifest parser are an oracle `fetch` mapping each URL
to what fetching plus parsing it yields. The Rust function recurses into
the candidates chosen from a master playlist; that recursion, which can be
unbounded for cyclic manifests, is bounded by fuel, while the candidate
loop of one invocation is structural.
-/

/-- What fetching one candidate URL and parsing the body yields. -/
inductive FetchResult where
  | netError (e : String)
  | parseError (e : String)
  | master (pl : MasterPlaylist)
  | media (pl : MediaPlaylist)
  deriving DecidableEq

/-- The error string a failed candidate stores into `last_error`. -/
def FetchResult.errString : FetchResult → Option String
  | .netError e => some e
  | .parseError e => some e
  | _ => none

/-- Outcome of one pass of the candidate loop. -/
inductive ScanResult where
  | done (r : Option (Except String MediaPlaylist))
  | recurse (newUrls : List Url)

/-- The candidate loop of `choose_media_playlist`: candidates are fetched
in order, failures update `last_error` (second argument), a media playlist
is normalized and returned, and a master playlist asks the caller to
recurse into the chosen variant URLs. An exhausted list unwraps
`last_error`, aborting when it is still empty. -/
def cmp_scan (fetch : Url → FetchResult) : List Url → Option String → ScanResult
  | [], none => .done none
  | [], some e => .done (some (Except.error e))
  | url :: rest, _lastErr =>
    match fetch url with
    | .netError e => cmp_scan fetch rest (some e)
    | .parseError e => cmp_scan fetch rest (some e)
    | .media pl => .done ((normalize_media_playlist pl url).map Except.ok)
    | .master pl =>
      match choose_urls_from_master_playlist pl url with
      | none => .done none
      | some newUrls => .recurse newUrls

/-- Model of `choose_media_playlist`: the result is `some (Except.ok pl)`
for a resolved media playlist, `some (Except.error e)` for the Rust `Err`
return, and `none` when the run aborts (an unwrap fails) or the fuel ends. -/
def choose_media_playlist (fetch : Url → FetchResult) :
    Nat → List Url → Option (Except String MediaPlaylist)
  | fuel, urls =>
    match cmp_scan fetch urls none with
    | .done r => r
    | .recurse newUrls =>
      match fuel with
      | 0 => none
      | fuel' + 1 => choose_media_playlist fetch fuel' newUrls

/-! ## `download_ts_and_replace` (src/src/main.rs:139-169)

Each spawned task computes, for the segment at ordinal `id`, the pair of
that ordinal and the local path `dir/id.ts`, after downloading the segment
URI into that file. The downloads themselves are side effects; what the
tasks return, and how the final loop rewrites the playlist from the
returned pairs, is modelled purely. `join_all` returns the results in task
order, but the rewrite loop only uses the `id` carried by each result, so
the model lets the result list arrive in any order.
-/

/-- The local file path `format!("{}.ts", id)` pushed onto `dir`. -/
def ts_file_path (dir : String) (id : Nat) : String :=
  dir ++ "/" ++ Nat.repr id ++ ".ts"

/-- The tasks spawned by `playlist.segments.iter().enumerate().map(..)`,
starting at ordinal `n`: each carries its ordinal, the remote URI it
downloads, and the local file path it writes and returns. -/
def download_ts_tasks_from (dir : String) (n : Nat) : List MediaSegment → List (Nat × String × String)
  | [] => []
  | s :: rest => (n, s.uri, ts_file_path dir n) :: download_ts_tasks_from dir (n + 1) rest

/-- All tasks of a playlist, ordinals starting at zero. -/
def download_ts_tasks (dir : String) (pl : MediaPlaylist) : List (Nat × String × String) :=
  download_ts_tasks_from dir 0 pl.segments

/-- The `(id, file_path)` pairs the tasks return. -/
def download_results (dir : String) (pl : MediaPlaylist) : List (Nat × String) :=
  (download_ts_tasks dir pl).map (fun t => (t.1, t.2.2))

/-- Model of `playlist.segments.get_mut(id).unwrap().uri = url`: `none`
models the unwrap aborting on an out-of-range ordinal. -/
def set_uri : List MediaSegment → Nat → String → Option (List MediaSegment)
  | [], _, _ => none
  | _ :: rest, 0, path => some (⟨path⟩ :: rest)
  | s :: rest, n + 1, path => (set_uri rest n path).map (fun tail => s :: tail)

/-- The final rewrite loop of `download_ts_and_replace`, over the returned
`(id, path)` pairs in the order they arrive. -/
def apply_results : List (Nat × String) → List MediaSegment → Option (List MediaSegment)
  | [], segs => some segs
  | r :: rest, segs =>
    match set_uri segs r.1 r.2 with
    | none => none
    | some segs' => apply_results rest segs'

/-- Model of `download_ts_and_replace` on the success path of every task. -/
def download_ts_and_replace (dir : String) (pl : MediaPlaylist) : Option MediaPlaylist :=
  (apply_results (download_results dir pl) pl.segments).map MediaPlaylist.mk

/-! ## `download_ts_to` (src/src/main.rs:171-225)

The network is an oracle: a list of connection attempts, one entry per
`req.send()` call, each either failing or yielding a response with an
optional declared content length and a finite body, itself a list of chunk
events (a data chunk or a body-read error; the end of the list is the
natural end of the stream, `Ok(None)`). The destination file is its byte
list; `start` mirrors the `start` variable of the code. The unbounded
`loop` is bounded by fuel, with a distinct `spun` outcome so that running
out of fuel is never mistaken for a result of the program.
-/

/-- One `response.chunk()` event: a successfully read chunk of bytes, or a
body-read error. -/
inductive ChunkItem where
  | chunk (data : List Nat)
  | err
  deriving DecidableEq

/-- One `req.send()` attempt: a transport failure, or a response carrying
`response.content_length()` and the body events. -/
inductive ConnAttempt where
  | fail
  | ok (contentLength : Option Nat) (body : List ChunkItem)
  deriving DecidableEq

/-- Outcome of the inner `while retried < RETRIES` streaming loop. -/
inductive StreamOutcome where
  | finished (file : List Nat) (start : Nat) (warn : Bool)
  | exhausted (file : List Nat) (start : Nat)
  deriving DecidableEq

/-- Final outcome of the fetcher. -/
inductive DlResult where
  | ok (file : List Nat) (warn : Bool)
  | panicked
  | spun
  deriving DecidableEq

/-- The `Range` header value: `format!("{}-", start)`, attached if and only
if `start > 0`. -/
def mk_range_header (start : Nat) : Option String :=
  if start > 0 then some (Nat.repr start ++ "-") else none

/-- The `for retried in 0u8..RETRIES` connect loop: each iteration sends
one request (logged as the file contents at the moment of the send paired
with the range header), stopping at the first response. `none` in the
second component models `response.unwrap_or_else(|| panic..)` firing after
ten failed attempts; an exhausted oracle fails the remaining attempts. -/
def connect_loop (file : List Nat) (start : Nat) :
    Nat → List ConnAttempt →
      List (List Nat × Option String) × Option (Option Nat × List ChunkItem × List ConnAttempt)
  | 0, _ => ([], none)
  | budget + 1, [] =>
    let next := connect_loop file start budget []
    ((file, mk_range_header start) :: next.1, none)
  | budget + 1, ConnAttempt.fail :: rest =>
    let next := connect_loop file start budget rest
    ((file, mk_range_header start) :: next.1, next.2)
  | _ + 1, ConnAttempt.ok cl body :: rest =>
    ([(file, mk_range_header start)], some (cl, body, rest))

/-- The inner `while retried < RETRIES` loop over the body events: a chunk
is appended to the file, advances `start` and `have_read` and resets the
error counter; an error increments the counter; the end of the events is
`Ok(None)`, which flushes and returns with the content-length warning flag;
a counter reaching ten leaves the loop with the response dropped. -/
def stream_loop (shouldRead : Option Nat) :
    List ChunkItem → List Nat → Nat → Nat → Nat → StreamOutcome
  | body, file, start, haveRead, retried =>
    if retried < 10 then
      match body with
      | [] =>
        .finished file start
          (match shouldRead with
           | some n => n != haveRead
           | none => false)
      | .chunk data :: rest =>
        stream_loop shouldRead rest (file ++ data) (start + data.length)
          (haveRead + data.length) 0
      | .err :: rest => stream_loop shouldRead rest file start haveRead (retried + 1)
    else .exhausted file start

/-- The outer `loop` of `download_ts_to`: connect, then stream; a finished
stream returns `Ok(())`, an exhausted body-error budget re-enters the loop
with the remaining connection attempts. The first component collects every
request sent. -/
def download_loop :
    Nat → List ConnAttempt → List Nat → Nat → List (List Nat × Option String) × DlResult
  | 0, _, _, _ => ([], .spun)
  | fuel + 1, conns, file, start =>
    match connect_loop file start 10 conns with
    | (log, none) => (log, .panicked)
    | (log, some (cl, body, rest)) =>
      match stream_loop cl body file start 0 0 with
      | .finished f _ warn => (log, .ok f warn)
      | .exhausted f s =>
        let next := download_loop fuel rest f s
        (log ++ next.1, next.2)

/-- Model of `download_ts_to`: the resume offset is the seek-to-end of the
destination file, its current length. -/
def download_ts_to (fuel : Nat) (conns : List ConnAttempt) (file : List Nat) :
    List (List Nat × Option String) × DlResult :=
  download_loop fuel conns file file.length

/-! ## Specification lemmas: URL normalization of media playlists -/

/-- Successful normalization maps each segment URI to the serialization of
its resolution against the base, position by position. -/
theorem normalize_segment_uris_spec (base : Url) :
    ∀ (segs segs' : List MediaSegment), normalize_segment_uris base segs = some segs' →
      segs'.length = segs.length ∧
      ∀ (i : Nat) (hi : i < segs.length) (hi' : i < segs'.length),
        ∃ u, resolve_uri base (segs.get ⟨i, hi⟩).uri = some u ∧
          (segs'.get ⟨i, hi'⟩).uri = urlToString u := by
  intro segs
  induction segs with
  | nil =>
    intro segs' h
    simp only [normalize_segment_uris, Option.some.injEq] at h
    subst h
    exact ⟨rfl, fun i hi _ => absurd hi (Nat.not_lt_zero i)⟩
  | cons s rest ih =>
    intro segs' h
    simp only [normalize_segment_uris] at h
    cases hres : resolve_uri base s.uri with
    | none => rw [hres] at h; exact absurd h (by simp)
    | some u =>
      rw [hres] at h
      cases hrest : normalize_segment_uris base rest with
      | none => rw [hrest] at h; exact absurd h (by simp)
      | some tail =>
        rw [hrest] at h
        simp only [Option.map_some', Option.some.injEq] at h
        subst h
        obtain ⟨hlen, hspec⟩ := ih tail hrest
        refine ⟨by simp [hlen], ?_⟩
        intro i hi hi'
        cases i with
        | zero => exact ⟨u, hres, rfl⟩
        | succ j =>
          exact hspec j (Nat.lt_of_succ_lt_succ hi) (Nat.lt_of_succ_lt_succ hi')

/-- Claim C2 (amended): for every media playlist and base URL, a successful
`normalize_media_playlist` rewrites each segment URI so that a relative URI
(one the URL parser rejects) becomes the serialization of its resolution
against the base by standard URL-resolution rules, while a URI that is
already an absolute URL is re-parsed and re-serialized in canonical form,
hence left byte-for-byte unchanged exactly when it is already in canonical
serialized form. -/
theorem C2_normalize_rewrites (pl : MediaPlaylist) (base : Url) (res : MediaPlaylist)
    (h : normalize_media_playlist pl base = some res) :
    res.segments.length = pl.segments.length ∧
    ∀ (i : Nat) (hi : i < pl.segments.length) (hi' : i < res.segments.length),
      (∀ u, urlParse (pl.segments.get ⟨i, hi⟩).uri = some u →
        (res.segments.get ⟨i, hi'⟩).uri = urlToString u ∧
        (urlToString u = (pl.segments.get ⟨i, hi⟩).uri →
          (res.segments.get ⟨i, hi'⟩).uri = (pl.segments.get ⟨i, hi⟩).uri)) ∧
      (urlParse (pl.segments.get ⟨i, hi⟩).uri = none →
        ∀ u, urlJoin base (pl.segments.get ⟨i, hi⟩).uri = some u →
          (res.segments.get ⟨i, hi'⟩).uri = urlToString u) := by
  simp only [normalize_media_playlist] at h
  obtain ⟨segs', hn, hres⟩ := Option.map_eq_some'.mp h
  obtain ⟨hlen, hspec⟩ := normalize_segment_uris_spec base pl.segments segs' hn
  subst hres
  refine ⟨hlen, ?_⟩
  intro i hi hi'
  obtain ⟨u₀, hu₀, heq⟩ := hspec i hi hi'
  constructor
  · intro u hu
    have : resolve_uri base (pl.segments.get ⟨i, hi⟩).uri = some u := by
      unfold resolve_uri
      rw [hu]
    rw [this] at hu₀
    cases hu₀
    exact ⟨heq, fun hcanon => by rw [heq, hcanon]⟩
  · intro hnone u hju
    have : resolve_uri base (pl.segments.get ⟨i, hi⟩).uri = some u := by
      unfold resolve_uri
      rw [hnone]
      exact hju
    rw [this] at hu₀
    cases hu₀
    exact heq

/-- Claim C2, counterexample to the claim as stated: the segment URI
`http://HOST/a.ts` is an absolute URL (the parser accepts it), yet
normalization rewrites it to its canonical form `http://host/a.ts`, which
differs byte-for-byte from the original. -/
theorem C2_counterexample :
    normalize_media_playlist ⟨[⟨"http://HOST/a.ts"⟩]⟩ ⟨"http", "host", none, ["x.m3u8"]⟩
      = some ⟨[⟨"http://host/a.ts"⟩]⟩ ∧
    (urlParse "http://HOST/a.ts").isSome = true ∧
    "http://host/a.ts" ≠ "http://HOST/a.ts" := by
  refine ⟨by decide, by decide, by decide⟩

/-- Witness for C2: the amended theorem applied to a concrete playlist with
the relative URI `a.ts` and base `https://host/dir/s.m3u8`. -/
theorem C2_witness :
    (MediaPlaylist.mk [⟨"https://host/dir/a.ts"⟩]).segments.length
      = (MediaPlaylist.mk [⟨"a.ts"⟩]).segments.length ∧
    ((MediaPlaylist.mk [⟨"https://host/dir/a.ts"⟩]).segments.get ⟨0, Nat.zero_lt_one⟩).uri
      = urlToString ⟨"https", "host", none, ["dir", "a.ts"]⟩ :=
  ⟨(C2_normalize_rewrites ⟨[⟨"a.ts"⟩]⟩ ⟨"https", "host", none, ["dir", "s.m3u8"]⟩
      ⟨[⟨"https://host/dir/a.ts"⟩]⟩ (by decide)).1,
   (((C2_normalize_rewrites ⟨[⟨"a.ts"⟩]⟩ ⟨"https", "host", none, ["dir", "s.m3u8"]⟩
      ⟨[⟨"https://host/dir/a.ts"⟩]⟩ (by decide)).2 0 Nat.zero_lt_one Nat.zero_lt_one).2
      (by decide) ⟨"https", "host", none, ["dir", "a.ts"]⟩ (by decide))⟩

/-! ## Specification lemmas: bandwidth parsing and maximum selection -/

/-- A successful `parse_all` yields one bandwidth per variant. -/
theorem parse_all_length :
    ∀ (vs : List VariantStream) (bws : List Nat),
      parse_all vs = some bws → bws.length = vs.length := by
  intro vs
  induction vs with
  | nil =>
    intro bws h
    simp only [parse_all, Option.some.injEq] at h
    subst h
    rfl
  | cons v rest ih =>
    intro bws h
    simp only [parse_all] at h
    cases hp : parseU64 v.bandwidth with
    | none => rw [hp] at h; exact absurd h (by simp)
    | some b =>
      rw [hp] at h
      cases hr : parse_all rest with
      | none => rw [hr] at h; exact absurd h (by simp)
      | some bs =>
        rw [hr] at h
        simp only [Option.some.injEq] at h
        subst h
        simp [ih bs hr]

/-- Every variant of a successfully parsed list has its bandwidth value in
the produced list. -/
theorem parse_all_mem :
    ∀ (vs : List VariantStream) (bws : List Nat),
      parse_all vs = some bws → ∀ v ∈ vs, ∃ b ∈ bws, parseU64 v.bandwidth = some b := by
  intro vs
  induction vs with
  | nil =>
    intro bws _ v hv
    exact absurd hv (List.not_mem_nil v)
  | cons w rest ih =>
    intro bws h v hv
    simp only [parse_all] at h
    cases hp : parseU64 w.bandwidth with
    | none => rw [hp] at h; exact absurd h (by simp)
    | some b =>
      rw [hp] at h
      cases hr : parse_all rest with
      | none => rw [hr] at h; exact absurd h (by simp)
      | some bs =>
        rw [hr] at h
        simp only [Option.some.injEq] at h
        subst h
        rcases List.mem_cons.mp hv with hv | hv
        · subst hv
          exact ⟨b, List.mem_cons_self b bs, hp⟩
        · obtain ⟨b', hb', hpb'⟩ := ih bs hr v hv
          exact ⟨b', List.mem_cons_of_mem b hb', hpb'⟩

/-- Every produced bandwidth value comes from some variant. -/
theorem parse_all_mem_rev :
    ∀ (vs : List VariantStream) (bws : List Nat),
      parse_all vs = some bws → ∀ b ∈ bws, ∃ v ∈ vs, parseU64 v.bandwidth = some b := by
  intro vs
  induction vs with
  | nil =>
    intro bws h b hb
    simp only [parse_all, Option.some.injEq] at h
    subst h
    exact absurd hb (List.not_mem_nil b)
  | cons w rest ih =>
    intro bws h b hb
    simp only [parse_all] at h
    cases hp : parseU64 w.bandwidth with
    | none => rw [hp] at h; exact absurd h (by simp)
    | some b₀ =>
      rw [hp] at h
      cases hr : parse_all rest with
      | none => rw [hr] at h; exact absurd h (by simp)
      | some bs =>
        rw [hr] at h
        simp only [Option.some.injEq] at h
        subst h
        rcases List.mem_cons.mp hb with hb | hb
        · subst hb
          exact ⟨w, List.mem_cons_self w rest, hp⟩
        · obtain ⟨v, hv, hpv⟩ := ih bs hr b hb
          exact ⟨v, List.mem_cons_of_mem w hv, hpv⟩

/-- A single non-numeric bandwidth makes the whole bandwidth pass abort. -/
theorem parse_all_none :
    ∀ (vs : List VariantStream) (v : VariantStream),
      v ∈ vs → parseU64 v.bandwidth = none → parse_all vs = none := by
  intro vs
  induction vs with
  | nil =>
    intro v hv
    exact absurd hv (List.not_mem_nil v)
  | cons w rest ih =>
    intro v hv hbad
    rcases List.mem_cons.mp hv with hv | hv
    · subst hv
      simp [parse_all, hbad]
    · simp only [parse_all, ih v hv hbad]
      cases parseU64 w.bandwidth <;> rfl

/-- The running maximum dominates its seed. -/
theorem listMaxFrom_le_self : ∀ (l : List Nat) (c : Nat), c ≤ listMaxFrom c l := by
  intro l
  induction l with
  | nil => intro c; exact Nat.le_refl c
  | cons y ys ih =>
    intro c
    exact Nat.le_trans (Nat.le_max_left c y) (ih (Nat.max c y))

/-- The running maximum dominates every element. -/
theorem listMaxFrom_le_of_mem :
    ∀ (l : List Nat) (c y : Nat), y ∈ l → y ≤ listMaxFrom c l := by
  intro l
  induction l with
  | nil =>
    intro c y hy
    exact absurd hy (List.not_mem_nil y)
  | cons z zs ih =>
    intro c y hy
    rcases List.mem_cons.mp hy with hy | hy
    · subst hy
      exact Nat.le_trans (Nat.le_max_right c y) (listMaxFrom_le_self zs (Nat.max c y))
    · exact ih (Nat.max c z) y hy

/-- The binary maximum is one of its arguments. -/
theorem natMax_choice (a b : Nat) : Nat.max a b = a ∨ Nat.max a b = b := by
  show max a b = a ∨ max a b = b
  rw [Nat.max_def]
  split
  · exact Or.inr rfl
  · exact Or.inl rfl

/-- The running maximum is the seed or an element. -/
theorem listMaxFrom_attained :
    ∀ (l : List Nat) (c : Nat), listMaxFrom c l = c ∨ listMaxFrom c l ∈ l := by
  intro l
  induction l with
  | nil => intro c; exact Or.inl rfl
  | cons y ys ih =>
    intro c
    rcases ih (Nat.max c y) with h | h
    · rcases natMax_choice c y with hm | hm
      · exact Or.inl (by rw [listMaxFrom, h, hm])
      · refine Or.inr ?_
        rw [listMaxFrom, h, hm]
        exact List.mem_cons_self y ys
    · exact Or.inr (List.mem_cons_of_mem y (by rw [listMaxFrom]; exact h))

/-- The maximum of a nonempty list is an upper bound and is attained. -/
theorem listMax?_spec :
    ∀ (bws : List Nat) (best : Nat), listMax? bws = some best →
      (∀ b ∈ bws, b ≤ best) ∧ best ∈ bws := by
  intro bws best h
  cases bws with
  | nil => exact absurd h (by simp [listMax?])
  | cons x xs =>
    simp only [listMax?, Option.some.injEq] at h
    subst h
    constructor
    · intro b hb
      rcases List.mem_cons.mp hb with hb | hb
      · subst hb
        exact listMaxFrom_le_self xs b
      · exact listMaxFrom_le_of_mem xs x b hb
    · rcases listMaxFrom_attained xs x with h | h
      · rw [h]
        exact List.mem_cons_self x xs
      · exact List.mem_cons_of_mem x h

/-- When every bandwidth parses, the re-parsing filter of the code succeeds
and computes the plain filter by the parsed value. -/
theorem filter_unwrap_eq :
    ∀ (best : Nat) (vs : List VariantStream),
      (∀ v ∈ vs, (parseU64 v.bandwidth).isSome = true) →
      filter_unwrap best vs = some (vs.filter (fun v =>
        match parseU64 v.bandwidth with
        | some b => decide (best ≤ b)
        | none => false)) := by
  intro best vs
  induction vs with
  | nil => intro _; rfl
  | cons v rest ih =>
    intro hall
    have hv := hall v (List.mem_cons_self v rest)
    cases hp : parseU64 v.bandwidth with
    | none => rw [hp] at hv; exact absurd hv (by simp)
    | some b =>
      have hrest := ih (fun x hx => hall x (List.mem_cons_of_mem v hx))
      simp only [filter_unwrap, hp, hrest, Option.map_some', Option.some.injEq,
        List.filter_cons]
      by_cases hb : best ≤ b
      · simp [hb]
      · simp [hb]

/-- Resolution of the selected URIs preserves the count. -/
theorem resolve_all_length :
    ∀ (base : Url) (l : List VariantStream) (l' : List Url),
      resolve_all base l = some l' → l'.length = l.length := by
  intro base l
  induction l with
  | nil =>
    intro l' h
    simp only [resolve_all, Option.some.injEq] at h
    subst h
    rfl
  | cons v rest ih =>
    intro l' h
    simp only [resolve_all] at h
    cases hres : resolve_uri base v.uri with
    | none => rw [hres] at h; exact absurd h (by simp)
    | some u =>
      rw [hres] at h
      cases hrest : resolve_all base rest with
      | none => rw [hrest] at h; exact absurd h (by simp)
      | some tail =>
        rw [hrest] at h
        simp only [Option.map_some', Option.some.injEq] at h
        subst h
        simp [ih tail hrest]

/-- Claim C1: for every master playlist whose variants all have numeric
bandwidth fields and which has at least one variant (so that a maximum
bandwidth is present at all; the empty case aborts, see C10),
`choose_urls_from_master_playlist` selects exactly the variants whose
bandwidth equals the maximum bandwidth present — a nonempty set, with no
variant below the maximum — and returns their URIs resolved against the
manifest URL. -/
theorem C1_choose_urls_selects_max (pl : MasterPlaylist) (base : Url) (bws : List Nat)
    (hparse : parse_all pl.variants = some bws) (hne : pl.variants ≠ []) :
    ∃ best, listMax? bws = some best ∧
      (∀ v ∈ pl.variants, ∀ b, parseU64 v.bandwidth = some b → b ≤ best) ∧
      pl.variants.filter (fun v => parseU64 v.bandwidth == some best) ≠ [] ∧
      choose_urls_from_master_playlist pl base
        = resolve_all base (pl.variants.filter (fun v => parseU64 v.bandwidth == some best)) ∧
      (∀ sel, choose_urls_from_master_playlist pl base = some sel → sel ≠ []) := by
  have hlen := parse_all_length pl.variants bws hparse
  have hbws_ne : bws ≠ [] := by
    intro h0
    subst h0
    exact hne (List.length_eq_zero.mp hlen.symm)
  obtain ⟨x, xs, rfl⟩ := List.exists_cons_of_ne_nil hbws_ne
  refine ⟨listMaxFrom x xs, rfl, ?_⟩
  have hmax : listMax? (x :: xs) = some (listMaxFrom x xs) := rfl
  obtain ⟨hub, hmem⟩ := listMax?_spec (x :: xs) (listMaxFrom x xs) hmax
  have hvub : ∀ v ∈ pl.variants, ∀ b, parseU64 v.bandwidth = some b → b ≤ listMaxFrom x xs := by
    intro v hv b hb
    obtain ⟨b', hb', hpb'⟩ := parse_all_mem pl.variants _ hparse v hv
    have hbb : b = b' := Option.some.inj (hb.symm.trans hpb')
    subst hbb
    exact hub b hb'
  refine ⟨hvub, ?_⟩
  obtain ⟨v₀, hv₀, hpv₀⟩ := parse_all_mem_rev pl.variants _ hparse (listMaxFrom x xs) hmem
  have hfil_mem : v₀ ∈ pl.variants.filter
      (fun v => parseU64 v.bandwidth == some (listMaxFrom x xs)) := by
    refine List.mem_filter.mpr ⟨hv₀, ?_⟩
    rw [hpv₀]
    simp
  refine ⟨List.ne_nil_of_mem hfil_mem, ?_⟩
  have hsome : ∀ v ∈ pl.variants, (parseU64 v.bandwidth).isSome = true := by
    intro v hv
    obtain ⟨b', _, hpb'⟩ := parse_all_mem pl.variants _ hparse v hv
    rw [hpb']
    rfl
  have hfu := filter_unwrap_eq (listMaxFrom x xs) pl.variants hsome
  have hfilter_eq : pl.variants.filter (fun v =>
        match parseU64 v.bandwidth with
        | some b => decide (listMaxFrom x xs ≤ b)
        | none => false)
      = pl.variants.filter (fun v => parseU64 v.bandwidth == some (listMaxFrom x xs)) := by
    apply List.filter_congr
    intro v hv
    obtain ⟨b', hb', hpb'⟩ := parse_all_mem pl.variants _ hparse v hv
    rw [hpb']
    have hle : b' ≤ listMaxFrom x xs := hub b' hb'
    by_cases heq : b' = listMaxFrom x xs
    · subst heq
      simp
    · have hnle : ¬ (listMaxFrom x xs ≤ b') := fun hc => heq (Nat.le_antisymm hle hc)
      simp [hnle, heq]
  have hchoose : choose_urls_from_master_playlist pl base
      = resolve_all base (pl.variants.filter
          (fun v => parseU64 v.bandwidth == some (listMaxFrom x xs))) := by
    unfold choose_urls_from_master_playlist
    rw [hparse]
    show (match listMax? (x :: xs) with
      | none => none
      | some best =>
        match filter_unwrap best pl.variants with
        | none => none
        | some selected => resolve_all base selected) = _
    rw [hmax]
    show (match filter_unwrap (listMaxFrom x xs) pl.variants with
      | none => none
      | some selected => resolve_all base selected) = _
    rw [hfu, hfilter_eq]
  refine ⟨hchoose, ?_⟩
  intro sel hsel
  rw [hchoose] at hsel
  have hslen := resolve_all_length base _ sel hsel
  intro h0
  subst h0
  exact List.ne_nil_of_length_pos
    (hslen ▸ List.length_pos.mpr (List.ne_nil_of_mem hfil_mem)) rfl

/-- Witness for C1: the master playlist of the spec scenario with
bandwidths 500000 and 2000000; exactly the dominant variant is chosen. -/
theorem C1_witness :
    choose_urls_from_master_playlist ⟨[⟨"500000", "low.m3u8"⟩, ⟨"2000000", "hi.m3u8"⟩]⟩
        ⟨"https", "host", none, ["stream.m3u8"]⟩
      = some [⟨"https", "host", none, ["hi.m3u8"]⟩] := by
  obtain ⟨best, hmax, hub, hfne, heq, hns⟩ :=
    C1_choose_urls_selects_max ⟨[⟨"500000", "low.m3u8"⟩, ⟨"2000000", "hi.m3u8"⟩]⟩
      ⟨"https", "host", none, ["stream.m3u8"]⟩ [500000, 2000000] (by decide) (by decide)
  have hb : best = 2000000 := by
    have h2 : listMax? [500000, 2000000] = some 2000000 := by decide
    exact Option.some.inj (hmax.symm.trans h2)
  subst hb
  rw [heq]
  decide

/-! ## Specification lemmas: the candidate loop of the resolver -/

/-- An `errString` value comes from a network or parse failure. -/
theorem errString_cases (r : FetchResult) (e : String) :
    FetchResult.errString r = some e → r = .netError e ∨ r = .parseError e := by
  cases r with
  | netError e' =>
    intro h
    exact Or.inl (by rw [Option.some.inj h])
  | parseError e' =>
    intro h
    exact Or.inr (by rw [Option.some.inj h])
  | master pl => intro h; exact absurd h (by simp [FetchResult.errString])
  | media pl => intro h; exact absurd h (by simp [FetchResult.errString])

/-- A prefix of failing candidates is scanned past, and an exhausted list
whose last candidate failed with `e` returns exactly `Err(e)`. -/
theorem cmp_scan_all_fail (fetch : Url → FetchResult) :
    ∀ (init : List Url) (ulast : Url) (e : String) (lastErr : Option String),
      (∀ u ∈ init, (FetchResult.errString (fetch u)).isSome = true) →
      FetchResult.errString (fetch ulast) = some e →
      cmp_scan fetch (init ++ [ulast]) lastErr = .done (some (Except.error e)) := by
  intro init
  induction init with
  | nil =>
    intro ulast e lastErr _ hlast
    rcases errString_cases (fetch ulast) e hlast with h | h <;>
      simp [cmp_scan, h]
  | cons u us ih =>
    intro ulast e lastErr hall hlast
    have hu := hall u (List.mem_cons_self u us)
    obtain ⟨e', he'⟩ := Option.isSome_iff_exists.mp hu
    have hrest : ∀ x ∈ us, (FetchResult.errString (fetch x)).isSome = true :=
      fun x hx => hall x (List.mem_cons_of_mem u hx)
    rcases errString_cases (fetch u) e' he' with h | h <;>
      simp [cmp_scan, h, ih ulast e (some e') hrest hlast]

/-- A prefix of failing candidates is scanned past to the first
non-failing one. -/
theorem cmp_scan_skip (fetch : Url → FetchResult) :
    ∀ (init : List Url) (u : Url) (rest : List Url) (lastErr : Option String),
      (∀ x ∈ init, (FetchResult.errString (fetch x)).isSome = true) →
      (FetchResult.errString (fetch u)).isSome = false →
      ∃ le', cmp_scan fetch (init ++ u :: rest) lastErr = cmp_scan fetch (u :: rest) le' := by
  intro init
  induction init with
  | nil =>
    intro u rest lastErr _ _
    exact ⟨lastErr, rfl⟩
  | cons w ws ih =>
    intro u rest lastErr hall hu
    have hw := hall w (List.mem_cons_self w ws)
    obtain ⟨e', he'⟩ := Option.isSome_iff_exists.mp hw
    have hrest : ∀ x ∈ ws, (FetchResult.errString (fetch x)).isSome = true :=
      fun x hx => hall x (List.mem_cons_of_mem w hx)
    obtain ⟨le', hle'⟩ := ih u rest (some e') hrest hu
    rcases errString_cases (fetch w) e' he' with h | h <;>
      exact ⟨le', by simp [cmp_scan, h, hle']⟩

/-- Claim C6: for every nonempty candidate list, the resolver tries the
candidates in order, records and skips past every candidate whose fetch or
parse fails, and, when every candidate fails, returns an error equal to the
last error encountered; a surviving candidate that yields a media playlist
terminates the scan with that playlist, whatever follows it. -/
theorem C6_candidates_in_order (fetch : Url → FetchResult) :
    (∀ (init : List Url) (ulast : Url) (e : String) (fuel : Nat),
      (∀ u ∈ init, (FetchResult.errString (fetch u)).isSome = true) →
      FetchResult.errString (fetch ulast) = some e →
      choose_media_playlist fetch fuel (init ++ [ulast]) = some (Except.error e)) ∧
    (∀ (init : List Url) (u : Url) (m : MediaPlaylist) (rest : List Url) (fuel : Nat),
      (∀ x ∈ init, (FetchResult.errString (fetch x)).isSome = true) →
      fetch u = .media m →
      choose_media_playlist fetch fuel (init ++ u :: rest)
        = (normalize_media_playlist m u).map Except.ok) := by
  constructor
  · intro init ulast e fuel hall hlast
    have hscan := cmp_scan_all_fail fetch init ulast e none hall hlast
    unfold choose_media_playlist
    rw [hscan]
  · intro init u m rest fuel hall hu
    have hu' : (FetchResult.errString (fetch u)).isSome = false := by
      rw [hu]
      rfl
    obtain ⟨le', hle'⟩ := cmp_scan_skip fetch init u rest none hall hu'
    have hscan : cmp_scan fetch (init ++ u :: rest) none
        = .done ((normalize_media_playlist m u).map Except.ok) := by
      rw [hle']
      simp [cmp_scan, hu]
    unfold choose_media_playlist
    rw [hscan]

/-- Fixture candidate URL for the resolver witnesses. -/
def urlW1 : Url := ⟨"https", "host", none, ["a.m3u8"]⟩

/-- Second fixture candidate URL for the resolver witnesses. -/
def urlW2 : Url := ⟨"https", "host", none, ["b.m3u8"]⟩

/-- Fixture oracle where every candidate fails. -/
def fetchAllFail : Url → FetchResult := fun u =>
  if u = urlW1 then .netError "connection refused" else .parseError "invalid playlist"

/-- Witness for C6: two candidates, both failing; the returned error is the
second (last) one. -/
theorem C6_witness :
    choose_media_playlist fetchAllFail 0 [urlW1, urlW2]
      = some (Except.error "invalid playlist") :=
  (C6_candidates_in_order fetchAllFail).1 [urlW1] urlW2 "invalid playlist" 0
    (by decide) (by decide)

/-- Claim C9: a master playlist containing a variant whose bandwidth is not
numeric makes the resolution abort immediately at that point: the variant
selection aborts, and the whole resolution of a candidate list reaching
this master playlist aborts — it is not recorded as an ordinary candidate
error, and the remaining candidates are never consulted. -/
theorem C9_bad_bandwidth_aborts (fetch : Url → FetchResult) (pl : MasterPlaylist)
    (v : VariantStream) (base : Url) (init rest : List Url) (fuel : Nat)
    (hv : v ∈ pl.variants) (hbad : parseU64 v.bandwidth = none)
    (hinit : ∀ x ∈ init, (FetchResult.errString (fetch x)).isSome = true)
    (hfetch : fetch base = .master pl) :
    choose_urls_from_master_playlist pl base = none ∧
    choose_media_playlist fetch fuel (init ++ base :: rest) = none := by
  have hchoose : choose_urls_from_master_playlist pl base = none := by
    unfold choose_urls_from_master_playlist
    rw [parse_all_none pl.variants v hv hbad]
  refine ⟨hchoose, ?_⟩
  have hbase : (FetchResult.errString (fetch base)).isSome = false := by
    rw [hfetch]
    rfl
  obtain ⟨le', hle'⟩ := cmp_scan_skip fetch init base rest none hinit hbase
  have hscan : cmp_scan fetch (init ++ base :: rest) none = .done none := by
    rw [hle']
    simp [cmp_scan, hfetch, hchoose]
  unfold choose_media_playlist
  rw [hscan]

/-- Fixture oracle for C9: the first candidate is a master playlist with a
non-numeric bandwidth, the second would be a perfectly good media playlist. -/
def fetchBadBandwidth : Url → FetchResult := fun u =>
  if u = urlW1 then .master ⟨[⟨"fast", "hi.m3u8"⟩]⟩ else .media ⟨[]⟩

/-- Witness for C9: despite a good remaining candidate, the run aborts. -/
theorem C9_witness :
    choose_urls_from_master_playlist ⟨[⟨"fast", "hi.m3u8"⟩]⟩ urlW1 = none ∧
    choose_media_playlist fetchBadBandwidth 3 [urlW1, urlW2] = none :=
  C9_bad_bandwidth_aborts fetchBadBandwidth ⟨[⟨"fast", "hi.m3u8"⟩]⟩ ⟨"fast", "hi.m3u8"⟩
    urlW1 [] [urlW2] 3 (by decide) (by decide) (by decide) (by decide)

/-- Claim C10: a master playlist with an empty variant list makes variant
selection abort (the maximum is taken with an unconditional unwrap): no
empty candidate set and no recorded error is produced, and the resolution
of a candidate list reaching such a master playlist aborts instead of
falling through to the next candidate URL. -/
theorem C10_empty_variants_aborts (fetch : Url → FetchResult) (base : Url)
    (init rest : List Url) (fuel : Nat)
    (hinit : ∀ x ∈ init, (FetchResult.errString (fetch x)).isSome = true)
    (hfetch : fetch base = .master ⟨[]⟩) :
    choose_urls_from_master_playlist ⟨[]⟩ base = none ∧
    choose_media_playlist fetch fuel (init ++ base :: rest) = none := by
  have hchoose : choose_urls_from_master_playlist ⟨[]⟩ base = none := rfl
  refine ⟨hchoose, ?_⟩
  have hbase : (FetchResult.errString (fetch base)).isSome = false := by
    rw [hfetch]
    rfl
  obtain ⟨le', hle'⟩ := cmp_scan_skip fetch init base rest none hinit hbase
  have hscan : cmp_scan fetch (init ++ base :: rest) none = .done none := by
    rw [hle']
    simp [cmp_scan, hfetch, hchoose]
  unfold choose_media_playlist
  rw [hscan]

/-- Fixture oracle for C10: the first candidate is an empty master
playlist, the second would be a good media playlist. -/
def fetchEmptyMaster : Url → FetchResult := fun u =>
  if u = urlW1 then .master ⟨[]⟩ else .media ⟨[]⟩

/-- Witness for C10: the empty master playlist aborts the run even though a
further candidate remains. -/
theorem C10_witness :
    choose_urls_from_master_playlist ⟨[]⟩ urlW1 = none ∧
    choose_media_playlist fetchEmptyMaster 3 [urlW1, urlW2] = none :=
  C10_empty_variants_aborts fetchEmptyMaster urlW1 [] [urlW2] 3 (by decide) (by decide)

/-! ## Specification lemmas: the rewrite loop of the batch downloader -/

/-- An in-range ordinal makes `set_uri` succeed, rewriting exactly that
position. -/
theorem set_uri_some :
    ∀ (segs : List MediaSegment) (id : Nat) (path : String), id < segs.length →
      ∃ segs', set_uri segs id path = some segs' ∧ segs'.length = segs.length ∧
        ∀ (j : Nat) (hj : j < segs.length) (hj' : j < segs'.length),
          segs'.get ⟨j, hj'⟩ = if j = id then ⟨path⟩ else segs.get ⟨j, hj⟩ := by
  intro segs
  induction segs with
  | nil =>
    intro id path hid
    exact absurd hid (Nat.not_lt_zero id)
  | cons s rest ih =>
    intro id path hid
    cases id with
    | zero =>
      refine ⟨⟨path⟩ :: rest, rfl, rfl, ?_⟩
      intro j hj hj'
      cases j with
      | zero => rfl
      | succ k => simp
    | succ n =>
      obtain ⟨tail', htail', hlen', hget'⟩ := ih n path (Nat.lt_of_succ_lt_succ hid)
      refine ⟨s :: tail', ?_, by simp [hlen'], ?_⟩
      · simp only [set_uri, htail', Option.map_some']
      · intro j hj hj'
        cases j with
        | zero => simp
        | succ k =>
          have := hget' k (Nat.lt_of_succ_lt_succ hj) (Nat.lt_of_succ_lt_succ hj')
          simp only [List.get_cons_succ, this]
          by_cases hk : k = n
          · subst hk
            simp
          · simp [hk]

/-- The rewrite loop succeeds when every arriving ordinal is in range, and
each position whose ordinal arrives with a unique path carries that path at
the end, while positions that never arrive are untouched. -/
theorem apply_results_spec :
    ∀ (results : List (Nat × String)) (segs : List MediaSegment),
      (∀ e ∈ results, e.1 < segs.length) →
      ∃ segs', apply_results results segs = some segs' ∧ segs'.length = segs.length ∧
        ∀ (j : Nat) (hj : j < segs.length) (hj' : j < segs'.length),
          ((∀ q, (j, q) ∉ results) → segs'.get ⟨j, hj'⟩ = segs.get ⟨j, hj⟩) ∧
          (∀ p, (∀ q, (j, q) ∈ results → q = p) → (j, p) ∈ results →
            (segs'.get ⟨j, hj'⟩).uri = p) := by
  intro results
  induction results with
  | nil =>
    intro segs _
    refine ⟨segs, rfl, rfl, ?_⟩
    intro j hj hj'
    constructor
    · intro _
      rfl
    · intro p _ hmem
      exact absurd hmem (List.not_mem_nil (j, p))
  | cons r rest ih =>
    intro segs hlt
    obtain ⟨id, q⟩ := r
    have hid : id < segs.length := hlt (id, q) (List.mem_cons_self (id, q) rest)
    obtain ⟨segs₁, hset, hlen₁, hget₁⟩ := set_uri_some segs id q hid
    have hlt₁ : ∀ e ∈ rest, e.1 < segs₁.length := by
      intro e he
      rw [hlen₁]
      exact hlt e (List.mem_cons_of_mem (id, q) he)
    obtain ⟨segs', happ, hlen', hget'⟩ := ih segs₁ hlt₁
    refine ⟨segs', by simp only [apply_results, hset, happ], by rw [hlen', hlen₁], ?_⟩
    intro j hj hj'
    have hj₁ : j < segs₁.length := by rw [hlen₁]; exact hj
    have hj'' : j < segs'.length := hj'
    constructor
    · intro hnot
      have hne : j ≠ id := by
        intro h0
        subst h0
        exact hnot q (List.mem_cons_self (j, q) rest)
      have hnotrest : ∀ q', (j, q') ∉ rest :=
        fun q' hq' => hnot q' (List.mem_cons_of_mem (id, q) hq')
      have h1 := (hget' j hj₁ hj'').1 hnotrest
      rw [h1, hget₁ j hj hj₁]
      simp [hne]
    · intro p huniq hmem
      by_cases hrest : ∃ q', (j, q') ∈ rest
      · obtain ⟨q', hq'⟩ := hrest
        have hq'p : q' = p := huniq q' (List.mem_cons_of_mem (id, q) hq')
        subst hq'p
        exact (hget' j hj₁ hj'').2 q'
          (fun z hz => huniq z (List.mem_cons_of_mem (id, q) hz)) hq'
      · push_neg at hrest
        have hhead : (j, p) = (id, q) := by
          rcases List.mem_cons.mp hmem with h | h
          · exact h
          · exact absurd h (hrest p)
        have hj_id : j = id := congrArg Prod.fst hhead
        have hpq : p = q := congrArg Prod.snd hhead
        subst hj_id
        subst hpq
        have h1 := (hget' j hj₁ hj'').1 hrest
        rw [h1, hget₁ j hj hj₁]
        simp

/-- Shape of an element of the task list: ordinal `n + i` for position `i`,
the URI of the segment at that position, and the ordinal-derived file path. -/
theorem download_ts_tasks_from_get :
    ∀ (segs : List MediaSegment) (dir : String) (n i : Nat)
      (hi : i < segs.length) (hi' : i < (download_ts_tasks_from dir n segs).length),
      (download_ts_tasks_from dir n segs).get ⟨i, hi'⟩
        = (n + i, (segs.get ⟨i, hi⟩).uri, ts_file_path dir (n + i)) := by
  intro segs
  induction segs with
  | nil =>
    intro dir n i hi
    exact absurd hi (Nat.not_lt_zero i)
  | cons s rest ih =>
    intro dir n i hi hi'
    cases i with
    | zero => rfl
    | succ k =>
      have := ih dir (n + 1) k (Nat.lt_of_succ_lt_succ hi)
        (by
          have : (download_ts_tasks_from dir n (s :: rest)).length
              = (download_ts_tasks_from dir (n + 1) rest).length + 1 := rfl
          omega)
      simp only [download_ts_tasks_from, List.get_cons_succ, this]
      have harith : n + 1 + k = n + (k + 1) := by omega
      rw [harith]

/-- Every member of the task list is the task of some position. -/
theorem download_ts_tasks_from_mem :
    ∀ (segs : List MediaSegment) (dir : String) (n : Nat) (t : Nat × String × String),
      t ∈ download_ts_tasks_from dir n segs →
      ∃ i, i < segs.length ∧ t.1 = n + i ∧ t.2.2 = ts_file_path dir (n + i) := by
  intro segs
  induction segs with
  | nil =>
    intro dir n t ht
    exact absurd ht (List.not_mem_nil t)
  | cons s rest ih =>
    intro dir n t ht
    rcases List.mem_cons.mp ht with h | h
    · subst h
      exact ⟨0, Nat.succ_pos _, by simp, by simp⟩
    · obtain ⟨i, hil, h1, h2⟩ := ih dir (n + 1) t h
      refine ⟨i + 1, Nat.succ_lt_succ hil, ?_, ?_⟩
      · rw [h1]; omega
      · rw [h2]
        have : n + 1 + i = n + (i + 1) := by omega
        rw [this]

/-- Every position contributes its task to the task list. -/
theorem download_ts_tasks_from_mem_of :
    ∀ (segs : List MediaSegment) (dir : String) (n i : Nat) (hi : i < segs.length),
      (n + i, (segs.get ⟨i, hi⟩).uri, ts_file_path dir (n + i))
        ∈ download_ts_tasks_from dir n segs := by
  intro segs
  induction segs with
  | nil =>
    intro dir n i hi
    exact absurd hi (Nat.not_lt_zero i)
  | cons s rest ih =>
    intro dir n i hi
    cases i with
    | zero =>
      exact List.mem_cons_self _ _
    | succ k =>
      have := ih dir (n + 1) k (Nat.lt_of_succ_lt_succ hi)
      have harith : n + 1 + k = n + (k + 1) := by omega
      rw [harith] at this
      exact List.mem_cons_of_mem _ this

/-- Membership shape of the returned `(id, path)` pairs. -/
theorem download_results_mem (dir : String) (pl : MediaPlaylist) (j : Nat) (q : String) :
    (j, q) ∈ download_results dir pl →
    j < pl.segments.length ∧ q = ts_file_path dir j := by
  intro h
  simp only [download_results, List.mem_map] at h
  obtain ⟨t, ht, hpair⟩ := h
  obtain ⟨i, hil, h1, h2⟩ := download_ts_tasks_from_mem pl.segments dir 0 t ht
  have hj : j = i := by
    have := congrArg Prod.fst hpair
    simp at this
    omega
  subst hj
  refine ⟨hil, ?_⟩
  have := congrArg Prod.snd hpair
  simp at this
  rw [← this, h2]
  congr 1
  omega

/-- Every in-range ordinal occurs among the returned pairs, with its path. -/
theorem download_results_mem_of (dir : String) (pl : MediaPlaylist) (j : Nat)
    (hj : j < pl.segments.length) :
    (j, ts_file_path dir j) ∈ download_results dir pl := by
  have := download_ts_tasks_from_mem_of pl.segments dir 0 j hj
  simp only [Nat.zero_add] at this
  simp only [download_results, List.mem_map]
  exact ⟨(j, (pl.segments.get ⟨j, hj⟩).uri, ts_file_path dir j), this, rfl⟩

/-- Claim C3: for every media playlist and destination directory, the
rewrite pass of `download_ts_and_replace` leaves the segment at every
index `i` referencing exactly the local path `dir/i.ts` — the file that the
task of ordinal `i` filled from the original segment URI at index `i` — and
it does so for any arrival order of the per-task results (any permutation
of the task outputs). -/
theorem C3_replace_order_independent (dir : String) (pl : MediaPlaylist)
    (results' : List (Nat × String)) (hperm : results'.Perm (download_results dir pl)) :
    (∃ segs, apply_results results' pl.segments = some segs ∧
      segs.length = pl.segments.length ∧
      ∀ (i : Nat) (hi : i < segs.length), (segs.get ⟨i, hi⟩).uri = ts_file_path dir i) ∧
    (∃ segs, download_ts_and_replace dir pl = some (MediaPlaylist.mk segs) ∧
      segs.length = pl.segments.length ∧
      ∀ (i : Nat) (hi : i < segs.length), (segs.get ⟨i, hi⟩).uri = ts_file_path dir i) ∧
    (∀ (i : Nat) (hi : i < pl.segments.length)
      (hi' : i < (download_ts_tasks dir pl).length),
      (download_ts_tasks dir pl).get ⟨i, hi'⟩
        = (i, (pl.segments.get ⟨i, hi⟩).uri, ts_file_path dir i)) := by
  have hgen : ∀ (rs : List (Nat × String)), rs.Perm (download_results dir pl) →
      ∃ segs, apply_results rs pl.segments = some segs ∧
        segs.length = pl.segments.length ∧
        ∀ (i : Nat) (hi : i < segs.length), (segs.get ⟨i, hi⟩).uri = ts_file_path dir i := by
    intro rs hp
    have hmem : ∀ e ∈ rs, e ∈ download_results dir pl := fun e he => hp.mem_iff.mp he
    have hlt : ∀ e ∈ rs, e.1 < pl.segments.length := by
      intro e he
      obtain ⟨h1, _⟩ := download_results_mem dir pl e.1 e.2 (by
        have := hmem e he
        exact this)
      exact h1
    obtain ⟨segs, happ, hlen, hget⟩ := apply_results_spec rs pl.segments hlt
    refine ⟨segs, happ, hlen, ?_⟩
    intro i hi
    have hi0 : i < pl.segments.length := hlen ▸ hi
    have hin : (i, ts_file_path dir i) ∈ rs :=
      hp.mem_iff.mpr (download_results_mem_of dir pl i hi0)
    have huniq : ∀ q, (i, q) ∈ rs → q = ts_file_path dir i := by
      intro q hq
      exact (download_results_mem dir pl i q (hmem (i, q) hq)).2
    exact (hget i hi0 hi).2 (ts_file_path dir i) huniq hin
  refine ⟨hgen results' hperm, ?_, ?_⟩
  · obtain ⟨segs, happ, hlen, hget⟩ := hgen (download_results dir pl) (List.Perm.refl _)
    refine ⟨segs, ?_, hlen, hget⟩
    simp only [download_ts_and_replace, happ, Option.map_some']
  · intro i hi hi'
    have := download_ts_tasks_from_get pl.segments dir 0 i hi hi'
    simpa using this

/-- Witness for C3: a two-segment playlist whose task results arrive in
reversed order still rewrites position 0 to `d/0.ts`. -/
theorem C3_witness :
    (apply_results [(1, "d/1.ts"), (0, "d/0.ts")] [⟨"u0"⟩, ⟨"u1"⟩]).isSome = true := by
  obtain ⟨segs, hs, -, -⟩ :=
    (C3_replace_order_independent "d" ⟨[⟨"u0"⟩, ⟨"u1"⟩]⟩ [(1, "d/1.ts"), (0, "d/0.ts")]
      (by decide)).1
  rw [hs]
  rfl

/-! ## Specification lemmas: the byte-range fetcher -/

/-- Stream step: natural end of the body while the budget is alive. -/
theorem stream_loop_nil (sr : Option Nat) (file : List Nat) (start haveRead retried : Nat)
    (h : retried < 10) :
    stream_loop sr [] file start haveRead retried
      = .finished file start
          (match sr with
           | some n => n != haveRead
           | none => false) := by
  rw [stream_loop.eq_def]
  simp [h]

/-- Stream step: a successfully read chunk is appended and resets the
error counter. -/
theorem stream_loop_chunk_step (sr : Option Nat) (data : List Nat) (rest : List ChunkItem)
    (file : List Nat) (start haveRead retried : Nat) (h : retried < 10) :
    stream_loop sr (ChunkItem.chunk data :: rest) file start haveRead retried
      = stream_loop sr rest (file ++ data) (start + data.length) (haveRead + data.length) 0 := by
  rw [stream_loop.eq_def]
  simp [h]

/-- Stream step: a body-read error increments the counter. -/
theorem stream_loop_err_step (sr : Option Nat) (rest : List ChunkItem)
    (file : List Nat) (start haveRead retried : Nat) (h : retried < 10) :
    stream_loop sr (ChunkItem.err :: rest) file start haveRead retried
      = stream_loop sr rest file start haveRead (retried + 1) := by
  rw [stream_loop.eq_def]
  simp [h]

/-- Stream step: a counter at the budget leaves the loop. -/
theorem stream_loop_stop (sr : Option Nat) (body : List ChunkItem)
    (file : List Nat) (start haveRead retried : Nat) (h : ¬ retried < 10) :
    stream_loop sr body file start haveRead retried = .exhausted file start := by
  rw [stream_loop.eq_def]
  simp [h]

/-- A run of consecutive body-read errors that brings the counter to ten
exhausts the streaming budget, whatever part of the body remains unread. -/
theorem stream_loop_err_run (sr : Option Nat) :
    ∀ (k retried : Nat) (body : List ChunkItem) (file : List Nat) (start haveRead : Nat),
      retried + k = 10 →
      stream_loop sr (List.replicate k ChunkItem.err ++ body) file start haveRead retried
        = .exhausted file start := by
  intro k
  induction k with
  | zero =>
    intro retried body file start haveRead hk
    have h10 : retried = 10 := by omega
    subst h10
    exact stream_loop_stop sr _ file start haveRead 10 (by decide)
  | succ m ih =>
    intro retried body file start haveRead hk
    rw [List.replicate_succ, List.cons_append,
      stream_loop_err_step sr _ file start haveRead retried (by omega)]
    exact ih (retried + 1) body file start haveRead (by omega)

/-- A body consisting only of successfully read chunks streams to natural
end: the chunks land in the file in order, and the warning flag records a
mismatch between the declared length and the bytes read. -/
theorem stream_loop_chunks (sr : Option Nat) :
    ∀ (chunks : List (List Nat)) (file : List Nat) (start haveRead : Nat),
      stream_loop sr (chunks.map ChunkItem.chunk) file start haveRead 0
        = .finished (file ++ chunks.flatten) (start + chunks.flatten.length)
            (match sr with
             | some n => n != haveRead + chunks.flatten.length
             | none => false) := by
  intro chunks
  induction chunks with
  | nil =>
    intro file start haveRead
    rw [List.map_nil, stream_loop_nil sr file start haveRead 0 (by omega)]
    simp
  | cons c cs ih =>
    intro file start haveRead
    rw [List.map_cons, stream_loop_chunk_step sr c _ file start haveRead 0 (by omega),
      ih (file ++ c) (start + c.length) (haveRead + c.length)]
    simp only [List.flatten_cons, List.append_assoc, List.length_append]
    congr 1
    · omega
    · cases sr with
      | none => rfl
      | some n =>
        have harith : haveRead + c.length + cs.flatten.length
            = haveRead + (c.length + cs.flatten.length) := by
          omega
        rw [harith]

/-- Every request logged by the connect loop is sent with the file as it
was on entry and the range header derived from `start`. -/
theorem connect_loop_log (file : List Nat) (start : Nat) :
    ∀ (budget : Nat) (conns : List ConnAttempt) (e : List Nat × Option String),
      e ∈ (connect_loop file start budget conns).1 → e = (file, mk_range_header start) := by
  intro budget
  induction budget with
  | zero =>
    intro conns e he
    exact absurd he (List.not_mem_nil e)
  | succ b ih =>
    intro conns e he
    cases conns with
    | nil =>
      rcases List.mem_cons.mp he with h | h
      · exact h
      · exact ih [] e h
    | cons a rest =>
      cases a with
      | fail =>
        rcases List.mem_cons.mp he with h | h
        · exact h
        · exact ih rest e h
      | ok cl body =>
        rcases List.mem_cons.mp he with h | h
        · exact h
        · exact absurd h (List.not_mem_nil e)

/-- The streaming loop keeps `start` equal to the length of the file: both
are advanced by exactly the bytes of each successfully read chunk. -/
theorem stream_loop_invariant (sr : Option Nat) :
    ∀ (body : List ChunkItem) (file : List Nat) (haveRead retried : Nat),
      (∀ f s w, stream_loop sr body file file.length haveRead retried
        = .finished f s w → s = f.length) ∧
      (∀ f s, stream_loop sr body file file.length haveRead retried
        = .exhausted f s → s = f.length) := by
  intro body
  induction body with
  | nil =>
    intro file haveRead retried
    by_cases hr : retried < 10
    · rw [stream_loop_nil sr file file.length haveRead retried hr]
      constructor
      · intro f s w h
        cases h
        rfl
      · intro f s h
        cases h
    · rw [stream_loop_stop sr [] file file.length haveRead retried hr]
      constructor
      · intro f s w h
        cases h
      · intro f s h
        cases h
        rfl
  | cons item rest ih =>
    intro file haveRead retried
    by_cases hr : retried < 10
    · cases item with
      | chunk data =>
        rw [stream_loop_chunk_step sr data rest file file.length haveRead retried hr]
        have hlen : file.length + data.length = (file ++ data).length := by
          simp
        rw [hlen]
        exact ih (file ++ data) (haveRead + data.length) 0
      | err =>
        rw [stream_loop_err_step sr rest file file.length haveRead retried hr]
        exact ih file haveRead (retried + 1)
    · rw [stream_loop_stop sr _ file file.length haveRead retried hr]
      constructor
      · intro f s w h
        cases h
      · intro f s h
        cases h
        rfl

/-- One unfolding of the outer loop at positive fuel. -/
theorem download_loop_succ (fuel : Nat) (conns : List ConnAttempt)
    (file : List Nat) (start : Nat) :
    download_loop (fuel + 1) conns file start
      = match connect_loop file start 10 conns with
        | (log, none) => (log, .panicked)
        | (log, some (cl, body, rest)) =>
          match stream_loop cl body file start 0 0 with
          | .finished f _ warn => (log, .ok f warn)
          | .exhausted f s =>
            let next := download_loop fuel rest f s
            (log ++ next.1, next.2) := rfl

/-- Every request the fetcher ever sends carries the range header computed
from the length the destination file has at the moment of that send. -/
theorem download_loop_log :
    ∀ (fuel : Nat) (conns : List ConnAttempt) (file : List Nat) (start : Nat),
      start = file.length →
      ∀ e ∈ (download_loop fuel conns file start).1,
        e.2 = if e.1.length > 0 then some (Nat.repr e.1.length ++ "-") else none := by
  intro fuel
  induction fuel with
  | zero =>
    intro conns file start _ e he
    exact absurd he (List.not_mem_nil e)
  | succ n ih =>
    intro conns file start hstart e he
    subst hstart
    rw [download_loop_succ] at he
    cases hconn : connect_loop file file.length 10 conns with
    | mk log r =>
      rw [hconn] at he
      have hlog : ∀ x ∈ log, x = (file, mk_range_header file.length) := by
        intro x hx
        refine connect_loop_log file file.length 10 conns x ?_
        rw [hconn]
        exact hx
      have hentry : ∀ x, x = (file, mk_range_header file.length) →
          x.2 = if x.1.length > 0 then some (Nat.repr x.1.length ++ "-") else none := by
        intro x hx
        subst hx
        rfl
      cases r with
      | none =>
        dsimp only at he
        exact hentry e (hlog e he)
      | some v =>
        obtain ⟨cl, body, rest⟩ := v
        dsimp only at he
        cases hs : stream_loop cl body file file.length 0 0 with
        | finished f s w =>
          rw [hs] at he
          exact hentry e (hlog e he)
        | exhausted f s =>
          rw [hs] at he
          simp only [List.mem_append] at he
          rcases he with he | he
          · exact hentry e (hlog e he)
          · have hsf : s = f.length := (stream_loop_invariant cl body file 0 0).2 f s hs
            exact ih rest f s hsf e he

/-- Claim C5: every GET request issued by `download_ts_to` carries a
byte-range header exactly when the destination sink is nonempty at the
send, and that header asks for bytes from the sink length (the seek-to-end
resume offset) to the end of the resource. -/
theorem C5_range_header_iff_offset (fuel : Nat) (conns : List ConnAttempt) (file : List Nat) :
    ∀ e ∈ (download_ts_to fuel conns file).1,
      e.2 = if e.1.length > 0 then some (Nat.repr e.1.length ++ "-") else none :=
  download_loop_log fuel conns file file.length rfl

/-- Witness for C5: a one-byte sink produces the header `1-`. -/
theorem C5_witness :
    ((([7] : List Nat), (some (Nat.repr 1 ++ "-") : Option String)).2
      = if (([7] : List Nat)).length > 0
        then some (Nat.repr (([7] : List Nat)).length ++ "-") else none) :=
  C5_range_header_iff_offset 1 [ConnAttempt.ok none []] [7]
    ([7], some (Nat.repr 1 ++ "-")) (by decide)

/-- Claim C7: a body that reaches its natural end of stream makes the
fetcher return success with the file holding exactly the bytes received,
whatever the declared content length was; a mismatching declared length
only raises the warning flag. -/
theorem C7_length_mismatch_warns_only (fuel : Nat) (cl : Option Nat)
    (chunks : List (List Nat)) (conns : List ConnAttempt) (file : List Nat) :
    download_ts_to (fuel + 1) (ConnAttempt.ok cl (chunks.map ChunkItem.chunk) :: conns) file
      = ([(file, mk_range_header file.length)],
         DlResult.ok (file ++ chunks.flatten)
           (match cl with
            | some n => n != chunks.flatten.length
            | none => false)) := by
  unfold download_ts_to
  rw [download_loop_succ]
  have hconn : connect_loop file file.length 10
      (ConnAttempt.ok cl (chunks.map ChunkItem.chunk) :: conns)
      = ([(file, mk_range_header file.length)],
         some (cl, chunks.map ChunkItem.chunk, conns)) := rfl
  rw [hconn]
  dsimp only
  rw [stream_loop_chunks cl chunks file file.length 0]
  cases cl with
  | none => rfl
  | some n =>
    dsimp only
    rw [Nat.zero_add]

/-- Claim C4 (amended): ten consecutive body-read errors (the counter being
reset by every successfully read chunk) exhaust the streaming budget, but
that only abandons the current response: the fetcher re-enters its outer
loop and reconnects from the same offset, and the remaining connection
attempts alone determine the final outcome. The download is not failed as
unrecoverable at that point. -/
theorem C4_body_budget_reconnects :
    (∀ (fuel : Nat) (cl : Option Nat) (extra : List ChunkItem) (conns : List ConnAttempt)
      (file : List Nat) (start : Nat),
      download_loop (fuel + 1)
          (ConnAttempt.ok cl (List.replicate 10 ChunkItem.err ++ extra) :: conns) file start
        = ((file, mk_range_header start) :: (download_loop fuel conns file start).1,
           (download_loop fuel conns file start).2)) ∧
    (∀ (sr : Option Nat) (body : List ChunkItem) (file : List Nat) (start haveRead : Nat),
      stream_loop sr (List.replicate 10 ChunkItem.err ++ body) file start haveRead 0
        = StreamOutcome.exhausted file start) := by
  constructor
  · intro fuel cl extra conns file start
    rw [download_loop_succ]
    have hconn : connect_loop file start 10
        (ConnAttempt.ok cl (List.replicate 10 ChunkItem.err ++ extra) :: conns)
        = ([(file, mk_range_header start)],
           some (cl, List.replicate 10 ChunkItem.err ++ extra, conns)) := rfl
    rw [hconn]
    dsimp only
    rw [stream_loop_err_run cl 10 0 extra file start 0 rfl]
    rfl
  · intro sr body file start haveRead
    exact stream_loop_err_run sr 10 0 body file start haveRead rfl

/-- Claim C4, counterexample to the claim as stated: a run whose first
response yields ten consecutive body-read errors — exhausting the body
retry budget — still succeeds, because the fetcher reconnects and the
second response delivers the byte. The operation does not fail as
unrecoverable. -/
theorem C4_counterexample :
    (download_ts_to 2
        [ConnAttempt.ok none (List.replicate 10 ChunkItem.err),
         ConnAttempt.ok none [ChunkItem.chunk [5]]] []).2
      = DlResult.ok [5] false := by
  rfl
